import Mathlib

/-!
Verification of the document retrieval engine in `src/js/rag.js` (class
`RAGManager` and helpers): the sentence-aware chunker `chunkText`, the
keyword retriever `retrieveContext`, the context formatter `formatContext`,
and the document store operations (`addDocument`, `parseFile`,
`toggleDocument`, `removeDocument`, `clearAll`, `getStats`,
`saveDocuments`/`notifyListeners`).

Strings are modelled as Lean `String`s (lists of characters); JavaScript
string lengths are code-unit counts, which agree with character counts on
the ASCII fragment exercised here.  JavaScript's `Array.prototype.sort`
(stable since ES2019) is modelled by sorting index-tagged entries with a
total order that breaks score ties by emission index.
-/

set_option maxRecDepth 16000

namespace Rag

/-! ### JavaScript string primitives, modelled over `List Char` -/

/-- The whitespace test used to model `String.prototype.trim` (ASCII fragment:
space, tab, CR, LF agree between JS and `Char.isWhitespace`). -/
def jsWS (c : Char) : Bool := c.isWhitespace

/-- `l.trim()` on the character list: strip leading and trailing whitespace. -/
def trimS (l : List Char) : List Char := (l.dropWhile jsWS).rdropWhile jsWS

/-- `s.trim()` for JavaScript strings. -/
def jsTrim (s : String) : String := String.mk (trimS s.data)

/-- Split a character list at every separator character, keeping empty
pieces (so splitting `"a  b"` at spaces gives `["a", "", "b"]` and `""`
gives `[""]`), exactly as JavaScript's `String.prototype.split` with a
single-character separator. -/
def splitP (p : Char → Bool) : List Char → List (List Char)
  | [] => [[]]
  | c :: cs =>
    if p c then [] :: splitP p cs
    else
      match splitP p cs with
      | [] => [[c]]
      | w :: ws => (c :: w) :: ws

/-- `s.split(' ')` on the character list. -/
def splitSp (l : List Char) : List (List Char) := splitP (fun c => c = ' ') l

/-- `arr.join(' ')` on word lists: interleave single spaces. -/
def joinSp : List (List Char) → List Char
  | [] => []
  | [w] => w
  | w :: ws => w ++ ' ' :: joinSp ws

/-- `arr.slice(-k)`: the last `k` elements — except that `k = 0` gives
`arr.slice(0)`, the whole array (JavaScript's `-0` is `0`). -/
def sliceNeg (l : List (List Char)) (k : Nat) : List (List Char) :=
  if k = 0 then l else l.drop (l.length - k)

/-! ### The sentence splitter

`text.match(/[^.!?]+[.!?]+/g)` returns, scanning left to right, every
maximal block consisting of a nonempty run of non-terminator characters
followed by a nonempty run of terminators (`.`, `!`, `?`).  Characters
that can belong to no such block (terminators before any body, and a
trailing unterminated run) are skipped.  When there is no match at all,
`match` returns `null` and `chunkText` falls back to `[text]`.  The
scanner below is a single left-to-right pass with the same output. -/

/-- Is `c` one of the sentence terminators of the regex `[.!?]`? -/
def isTerm (c : Char) : Bool := c = '.' || c = '!' || c = '?'

/-- State of the sentence scanner: finished sentences, the pending run of
non-terminator characters, and the pending run of terminators after it. -/
structure SentState where
  done : List (List Char)
  body : List Char
  terms : List Char
deriving Repr

/-- One character of the sentence scan. -/
def sentStep (st : SentState) (c : Char) : SentState :=
  if isTerm c then
    if st.body.isEmpty then st
    else { st with terms := st.terms ++ [c] }
  else
    if st.terms.isEmpty then { st with body := st.body ++ [c] }
    else { done := st.done ++ [st.body ++ st.terms], body := [c], terms := [] }

/-- Close the scan: a pending body with terminators is a final sentence, a
trailing unterminated body is dropped. -/
def sentFinish (st : SentState) : List (List Char) :=
  if st.terms.isEmpty then st.done else st.done ++ [st.body ++ st.terms]

/-- All matches of `/[^.!?]+[.!?]+/g` in `l`, in order. -/
def sentencesCore (l : List Char) : List (List Char) :=
  sentFinish (l.foldl sentStep ⟨[], [], []⟩)

/-- `text.match(/[^.!?]+[.!?]+/g) || [text]` as in `chunkText`. -/
def matchSentencesL (l : List Char) : List (List Char) :=
  if (sentencesCore l).isEmpty then [l] else sentencesCore l

/-! ### The chunker `RAGManager.chunkText` -/

/-- Running state of `chunkText`'s loop: emitted chunks, the current chunk
buffer, and the `currentSize` counter (which the code keeps equal to the
buffer length). -/
structure CS where
  chunks : List (List Char)
  cur : List Char
  size : Nat
deriving Repr

/-- One loop iteration of `chunkText` over one sentence: close the current
chunk when it would overflow `chunkSize`, seeding the next buffer with the
last `⌊overlap / 5⌋` space-separated words, then append the sentence. -/
def chunkStep (chunkSize overlap : Nat) (st : CS) (s : List Char) : CS :=
  if st.size + s.length > chunkSize ∧ st.cur ≠ [] then
    let seeded := joinSp (sliceNeg (splitSp st.cur) (overlap / 5)) ++ [' ']
    ⟨st.chunks ++ [trimS st.cur], seeded ++ s, seeded.length + s.length⟩
  else ⟨st.chunks, st.cur ++ s, st.size + s.length⟩

/-- `chunkText` on character lists: fold the loop over the sentences and
emit the final buffer when it is nonempty after trimming. -/
def chunkList (l : List Char) (chunkSize overlap : Nat) : List (List Char) :=
  let st := (matchSentencesL l).foldl (chunkStep chunkSize overlap) ⟨[], [], 0⟩
  if trimS st.cur ≠ [] then st.chunks ++ [trimS st.cur] else st.chunks

/-- `RAGManager.chunkText(text, chunkSize = 500, overlap = 50)`.  Defaults
are passed explicitly by callers in this development. -/
def chunkText (text : String) (chunkSize overlap : Nat) : List String :=
  (chunkList text.data chunkSize overlap).map String.mk

/-! ### Data model: documents and the store -/

/-- A stored document (the object literal built in `addDocument`). -/
structure Document where
  id : String
  name : String
  type : String
  size : Nat
  content : String
  chunks : List String
  addedAt : Nat
  active : Bool
deriving DecidableEq, Repr

/-- A retrieval result (the object literal pushed in `retrieveContext`). -/
structure ScoredChunk where
  docId : String
  docName : String
  chunk : String
  chunkIndex : Nat
  score : Nat
deriving DecidableEq, Repr

/-- The observable state of a `RAGManager`: the in-memory `this.documents`,
the value persisted under the `'rag.documents'` storage key, and the log of
listener notifications (each `notifyListeners()` call passes the full
current document list to every registered listener). -/
structure StoreState where
  documents : List Document
  persisted : List Document
  notifications : List (List Document)
deriving DecidableEq, Repr

/-- `saveDocuments()`: write-through persistence followed by
`notifyListeners()`. -/
def saveDocuments (st : StoreState) : StoreState :=
  { st with persisted := st.documents, notifications := st.notifications ++ [st.documents] }

/-- The input of `addDocument`: a JS `File` with its `name`, `type`, `size`
and the text produced by `await file.text()`. -/
structure JsFile where
  name : String
  type : String
  size : Nat
  text : String
deriving DecidableEq, Repr

/-- The DOCX MIME type tested in `parseFile`. -/
def docxMime : String :=
  "application/vnd.openxmlformats-officedocument.wordprocessingml.document"

/-- `RAGManager.parseFile`: reject PDF and DOCX MIME types with the thrown
`Error` messages, return the decoded text otherwise. -/
def parseFile (file : JsFile) : Except String String :=
  if file.type = "application/pdf" then
    .error "PDF parsing not yet implemented. Please convert to text first."
  else if file.type = docxMime then
    .error "DOCX parsing not yet implemented. Please convert to text first."
  else .ok file.text

/-- The id generated in `addDocument`:
``doc_${Date.now()}_${Math.random().toString(36).substr(2, 9)}`` with the
timestamp and the random suffix supplied by the environment. -/
def mkDocId (now : Nat) (rand : String) : String :=
  "doc_" ++ toString now ++ "_" ++ rand

/-- `RAGManager.addDocument(file)`: parse, chunk with `chunkSize = 500`
(default `overlap = 50`), build the document, append, persist, notify.  A
`parseFile` failure propagates (the `catch` only logs and rethrows) and the
state is untouched. -/
def addDocument (st : StoreState) (file : JsFile) (now : Nat) (rand : String) :
    StoreState × Except String Document :=
  match parseFile file with
  | .error e => (st, .error e)
  | .ok content =>
    let doc : Document :=
      { id := mkDocId now rand, name := file.name, type := file.type,
        size := file.size, content := content, chunks := chunkText content 500 50,
        addedAt := now, active := true }
    (saveDocuments { st with documents := st.documents ++ [doc] }, .ok doc)

/-- Flip `active` on the first document whose id matches (the object
returned by `Array.prototype.find`). -/
def toggleFirst : List Document → String → List Document
  | [], _ => []
  | d :: ds, i =>
    if d.id = i then { d with active := !d.active } :: ds else d :: toggleFirst ds i

/-- `RAGManager.toggleDocument(docId)`: only when `find` hits does the flag
flip and `saveDocuments()` run. -/
def toggleDocument (st : StoreState) (docId : String) : StoreState :=
  if st.documents.any (fun d => d.id = docId) then
    saveDocuments { st with documents := toggleFirst st.documents docId }
  else st

/-- `RAGManager.removeDocument(docId)`: filter, then unconditionally
persist and notify. -/
def removeDocument (st : StoreState) (docId : String) : StoreState :=
  saveDocuments { st with documents := st.documents.filter (fun d => d.id ≠ docId) }

/-- `RAGManager.clearAll()`. -/
def clearAll (st : StoreState) : StoreState :=
  saveDocuments { st with documents := [] }

/-- `RAGManager.getDocument(docId)`. -/
def getDocument (st : StoreState) (docId : String) : Option Document :=
  st.documents.find? (fun d => d.id = docId)

/-- `RAGManager.getStats()`. -/
structure Stats where
  total : Nat
  active : Nat
  totalSize : Nat
  totalChunks : Nat
deriving DecidableEq, Repr

/-- `RAGManager.getStats()`: aggregates over the current collection. -/
def getStats (st : StoreState) : Stats :=
  { total := st.documents.length,
    active := (st.documents.filter (fun d => d.active)).length,
    totalSize := (st.documents.map (fun d => d.size)).sum,
    totalChunks := (st.documents.map (fun d => d.chunks.length)).sum }

/-! ### The retriever `RAGManager.retrieveContext` -/

/-- `s.toLowerCase()` on the ASCII fragment: `Char.toLower` per character. -/
def jsToLower (s : String) : String := String.mk (s.data.map Char.toLower)

/-- `query.toLowerCase().split(/\s+/).filter(t => t.length > 2)`.  Splitting
at every whitespace character instead of every whitespace run only adds
empty pieces, all removed by the length filter, so the token list agrees
with JavaScript's. -/
def queryTerms (query : String) : List String :=
  ((splitP jsWS (jsToLower query).data).map String.mk).filter (fun t => 2 < t.length)

/-- Count the matches of `chunk.match(new RegExp(term, 'g'))` for a term
containing no regex metacharacters: non-overlapping occurrences of `p` in
`t`, scanning left to right (fuel-driven; `t.length` steps always
suffice because every step consumes at least one character). -/
def cntGo (p : List Char) : Nat → List Char → Nat
  | 0, _ => 0
  | _ + 1, [] => 0
  | fuel + 1, c :: cs =>
    if p.isPrefixOf (c :: cs) then 1 + cntGo p fuel ((c :: cs).drop p.length)
    else cntGo p fuel cs

/-- Occurrence count, including the empty pattern (the empty regex matches
once at every position, giving `t.length + 1`); `retrieveContext` only ever
passes patterns of length at least 3. -/
def countOccs (p : List Char) (t : List Char) : Nat :=
  if p.isEmpty then t.length + 1 else cntGo p t.length t

/-- The score of one chunk: occurrences of every query term in the
lowercased chunk, summed. -/
def chunkScore (terms : List String) (chunk : String) : Nat :=
  (terms.map (fun term => countOccs term.data (jsToLower chunk).data)).sum

/-- The `scoredChunks` array in emission order: document order, then chunk
index, keeping only positive scores. -/
def emitChunks (terms : List String) (docs : List Document) : List ScoredChunk :=
  docs.flatMap (fun doc =>
    doc.chunks.enum.filterMap (fun p =>
      let score := chunkScore terms p.2
      if 0 < score then
        some ⟨doc.id, doc.name, p.2, p.1, score⟩
      else none))

/-- The order realized by JavaScript's stable `sort((a, b) => b.score -
a.score)` on index-tagged entries: higher score first, emission index
ascending among equal scores. -/
def scoredLE (a b : Nat × ScoredChunk) : Prop :=
  b.2.score < a.2.score ∨ (b.2.score = a.2.score ∧ a.1 ≤ b.1)

instance : DecidableRel scoredLE := fun a b => by
  unfold scoredLE; infer_instance

instance : IsTotal (Nat × ScoredChunk) scoredLE where
  total a b := by
    rcases Nat.lt_trichotomy a.2.score b.2.score with h | h | h
    · exact Or.inr (Or.inl h)
    · rcases Nat.le_total a.1 b.1 with h' | h'
      · exact Or.inl (Or.inr ⟨h.symm, h'⟩)
      · exact Or.inr (Or.inr ⟨h, h'⟩)
    · exact Or.inl (Or.inl h)

instance : IsTrans (Nat × ScoredChunk) scoredLE where
  trans a b c hab hbc := by
    rcases hab with h | ⟨h, h'⟩ <;> rcases hbc with g | ⟨g, g'⟩
    · exact Or.inl (g.trans h)
    · exact Or.inl (by rw [g]; exact h)
    · exact Or.inl (by rw [← h]; exact g)
    · exact Or.inr ⟨g.trans h, le_trans h' g'⟩

/-- The sorted, index-tagged scored chunks. -/
def sortScoredIdx (l : List ScoredChunk) : List (Nat × ScoredChunk) :=
  l.enum.insertionSort scoredLE

/-- The stable descending sort of `retrieveContext`. -/
def sortScored (l : List ScoredChunk) : List ScoredChunk :=
  (sortScoredIdx l).map Prod.snd

/-- `RAGManager.retrieveContext(query, topK = 3)` reading `this.documents`
from `docs`: filter active documents, bail out on none, score every chunk,
sort by score descending (stable) and keep the first `topK`. -/
def retrieveContext (docs : List Document) (query : String) (topK : Nat) :
    List ScoredChunk :=
  let activeDocuments := docs.filter (fun d => d.active)
  if activeDocuments.isEmpty then []
  else (sortScored (emitChunks (queryTerms query) activeDocuments)).take topK

/-! ### The context formatter `RAGManager.formatContext` -/

/-- One block of `formatContext`: the source line and the chunk text. -/
def formatBlock (item : ScoredChunk) : String :=
  "[Source: " ++ item.docName ++ ", Chunk " ++ toString (item.chunkIndex + 1) ++ "]\n"
    ++ item.chunk

/-- `RAGManager.formatContext(chunks)`. -/
def formatContext (chunks : List ScoredChunk) : String :=
  if chunks.length = 0 then ""
  else
    "=== RELEVANT DOCUMENT CONTEXT ===\n"
      ++ String.intercalate "\n\n---\n\n" (chunks.map formatBlock)
      ++ "\n=== END CONTEXT ===\n\n"

/-! ### Regex compilation failure (for claim C2)

`retrieveContext` builds `new RegExp(term, 'g')` from raw query tokens.
`new RegExp` throws a `SyntaxError` on invalid patterns; the check below
models the group-parenthesis failure mode (patterns such as `"((("`).
Patterns free of regex metacharacters always compile, so `retrieveContext`
above (which counts terms literally) is faithful for those. -/

/-- Are the group parentheses of a regex pattern balanced, starting from
`depth` open groups?  `new RegExp` rejects a pattern that closes an
unopened group or leaves one open. -/
def parenOk : Nat → List Char → Bool
  | 0, [] => true
  | _ + 1, [] => false
  | depth, c :: cs =>
    if c = '(' then parenOk (depth + 1) cs
    else if c = ')' then
      match depth with
      | 0 => false
      | d + 1 => parenOk d cs
    else parenOk depth cs

/-- `retrieveContext` with the `new RegExp(term, 'g')` compilation failure
modelled: the code constructs a fresh regex for every surviving term inside
every chunk visit, so as soon as one active document has a chunk and one
surviving term is an invalid pattern, the first visit throws. -/
def retrieveContextE (docs : List Document) (query : String) (topK : Nat) :
    Except String (List ScoredChunk) :=
  let activeDocuments := docs.filter (fun d => d.active)
  if activeDocuments.isEmpty then .ok []
  else if (activeDocuments.any fun d => !d.chunks.isEmpty) ∧
      ((queryTerms query).any fun t => !parenOk 0 t.data) then
    .error "SyntaxError: Invalid regular expression"
  else .ok ((sortScored (emitChunks (queryTerms query) activeDocuments)).take topK)

/-! ### Store operation sequences (for claim C9) -/

/-- One mutating store operation, with the environment inputs (`Date.now()`
and the `Math.random` suffix) of an ingestion made explicit. -/
inductive StoreOp where
  | add (file : JsFile) (now : Nat) (rand : String)
  | remove (docId : String)
  | toggle (docId : String)
  | clear
deriving DecidableEq, Repr

/-- Apply one store operation to the state (an ingestion failure leaves the
state unchanged). -/
def applyOp (st : StoreState) (op : StoreOp) : StoreState :=
  match op with
  | .add f now rand => (addDocument st f now rand).1
  | .remove i => removeDocument st i
  | .toggle i => toggleDocument st i
  | .clear => clearAll st

/-- Run a sequence of store operations. -/
def runOps (st : StoreState) (ops : List StoreOp) : StoreState :=
  ops.foldl applyOp st

/-- The `(Date.now(), random suffix)` pair of one operation, when it is an
ingestion. -/
def addPairOf : StoreOp → Option (Nat × String)
  | .add _ now rand => some (now, rand)
  | _ => none

/-- The `(Date.now(), random suffix)` pairs of the ingestions in a
sequence. -/
def addPairs (ops : List StoreOp) : List (Nat × String) :=
  ops.filterMap addPairOf

/-- The id generated by one operation: ingestions whose `parseFile`
succeeds construct a document (a rejected ingestion constructs none). -/
def genIdOf : StoreOp → Option String
  | .add f now rand =>
    match parseFile f with
    | .ok _ => some (mkDocId now rand)
    | .error _ => none
  | _ => none

/-- Every document id generated over the lifetime of a sequence. -/
def genIds (ops : List StoreOp) : List String :=
  ops.filterMap genIdOf

/-! ### Concrete inputs used by counterexamples and witnesses -/

/-- The Scenario A document content. -/
def scenarioContent : String := "Sentence one. Sentence two. Sentence three."

/-- The Scenario A document: its content chunked with `chunkSize = 15` and
the default `overlap = 50`, active. -/
def scenarioDoc : Document :=
  { id := "doc_1_abc", name := "doc.txt", type := "text/plain", size := 44,
    content := scenarioContent, chunks := chunkText scenarioContent 15 50,
    addedAt := 1, active := true }

/-- A plain-text file whose ingestion succeeds. -/
def plainFile : JsFile := { name := "a.txt", type := "text/plain", size := 3, text := "Hi." }

/-- The chunks `retrieveContext` scores: those of the active documents. -/
def activeChunks (docs : List Document) (query : String) : List ScoredChunk :=
  emitChunks (queryTerms query) (docs.filter (fun d => d.active))

/-! ### Instrumented chunker (for claims C5 and C6)

`chunkSeeds` runs exactly the loop of `chunkText` but records, for every
emitted chunk, the overlap fragment seeded at the start of its buffer and
the sentences appended after it, instead of the trimmed buffer
`trim(seed ++ body)` itself; `chunkList_eq_chunkSeeds` below ties the two
together. -/

/-- The instrumented loop state: closed `(seed, body)` buffers, the seed of
the current buffer and the sentences appended to it.  The running buffer of
`chunkText` is `seed ++ body`. -/
structure CSeed where
  done : List (List Char × List Char)
  seed : List Char
  body : List Char
deriving Repr

/-- One loop iteration of `chunkText`, instrumented. -/
def seedStep (chunkSize overlap : Nat) (st : CSeed) (s : List Char) : CSeed :=
  if (st.seed ++ st.body).length + s.length > chunkSize ∧ st.seed ++ st.body ≠ [] then
    ⟨st.done ++ [(st.seed, st.body)],
      joinSp (sliceNeg (splitSp (st.seed ++ st.body)) (overlap / 5)) ++ [' '], s⟩
  else ⟨st.done, st.seed, st.body ++ s⟩

/-- The `(seed, body)` decomposition of the chunks of `chunkText`. -/
def chunkSeeds (l : List Char) (chunkSize overlap : Nat) :
    List (List Char × List Char) :=
  let st := (matchSentencesL l).foldl (seedStep chunkSize overlap) ⟨[], [], []⟩
  if trimS (st.seed ++ st.body) ≠ [] then st.done ++ [(st.seed, st.body)] else st.done

/-- The chunks with the seeded overlap fragment — as it survives inside the
trimmed chunk — stripped from every chunk except the first. -/
def strippedChunks (ps : List (List Char × List Char)) : List (List Char) :=
  match ps with
  | [] => []
  | p :: rest =>
    trimS (p.1 ++ p.2) ::
      rest.map (fun q => (trimS (q.1 ++ q.2)).drop (q.1.dropWhile jsWS).length)

/-- A character list ending in a sentence terminator (every regex match of
the sentence splitter does). -/
def endsTerm (s : List Char) : Prop :=
  ∃ c, s.getLast? = some c ∧ isTerm c = true

/-- A character list containing at least one non-whitespace character. -/
def hasNW (l : List Char) : Prop := ∃ c ∈ l, jsWS c = false

/-- Shape of the seeds in the instrumented chunker state: the first chunk's
buffer is seeded with nothing, every later buffer with a fragment holding a
non-whitespace character. -/
def seedsOK (st : CSeed) : Prop :=
  match st.done with
  | [] => st.seed = []
  | p :: rest => p.1 = [] ∧ (∀ q ∈ rest, hasNW q.1) ∧ hasNW st.seed

/-- The sentence text accumulated in an instrumented chunker state: closed
bodies then the running body (seeds excluded). -/
def bodiesFlat (st : CSeed) : List Char :=
  (st.done.map Prod.snd).flatten ++ st.body

/-- The numeric value of a decimal digit character (for claim C9). -/
def dval (c : Char) : Nat := c.toNat - 48

/-- The value of a decimal digit string, most significant digit first
(for claim C9). -/
def decVal (l : List Char) : Nat := l.foldl (fun acc c => acc * 10 + dval c) 0

/-! ## Theorems -/

/-- Claim C1, counterexample: for the Scenario A document (content
`"Sentence one. Sentence two. Sentence three."` chunked with
`chunkSize = 15`, default overlap), `retrieveContext "two"` over that
single active document returns two ScoredChunks, not exactly one: the
word-overlap seeding copies "Sentence two." into the third chunk as
well. -/
theorem c1_counterexample :
    (retrieveContext [scenarioDoc] "two" 3).length = 2 ∧
    (retrieveContext [scenarioDoc] "two" 3).length ≠ 1 := by
  decide

/-- Claim C1, amended: the Scenario A content yields three chunks, and
`retrieveContext "two"` over the single active document returns exactly two
ScoredChunks — the second and third chunks, each containing "two", each
with score 1, in emission order. -/
theorem c1_amended :
    (chunkText scenarioContent 15 50).length = 3 ∧
    retrieveContext [scenarioDoc] "two" 3 =
      [{ docId := "doc_1_abc", docName := "doc.txt",
         chunk := "Sentence one.  Sentence two.", chunkIndex := 1, score := 1 },
       { docId := "doc_1_abc", docName := "doc.txt",
         chunk := "Sentence one.  Sentence two.  Sentence three.", chunkIndex := 2,
         score := 1 }] := by
  decide

/-- Claim C2 (code bug evidence): the query `"((("` — whose single
surviving token matches nothing — makes `retrieveContext` throw a
`SyntaxError` from `new RegExp("(((", 'g')` as soon as one active document
has a chunk, instead of returning the empty sequence. -/
theorem c2_regex_syntax_error :
    retrieveContextE
      [{ id := "doc_1_a", name := "a.txt", type := "text/plain", size := 6,
         content := "hello.", chunks := ["hello."], addedAt := 0, active := true }]
      "(((" 3 = Except.error "SyntaxError: Invalid regular expression" := rfl

/-- Claim C3: `addDocument` on a PDF or DOCX MIME type fails with the
unsupported-format error and is all-or-nothing — the in-memory collection,
the persisted collection, the notification log and `getStats().total` are
exactly as before the call. -/
theorem c3_addDocument_unsupported (st : StoreState) (file : JsFile) (now : Nat)
    (rand : String) (h : file.type = "application/pdf" ∨ file.type = docxMime) :
    (∃ e, (addDocument st file now rand).2 = Except.error e) ∧
    (addDocument st file now rand).1 = st ∧
    ((addDocument st file now rand).1).documents = st.documents ∧
    ((addDocument st file now rand).1).persisted = st.persisted ∧
    ((addDocument st file now rand).1).notifications = st.notifications ∧
    (getStats (addDocument st file now rand).1).total = (getStats st).total := by
  rcases h with h | h <;>
    simp [addDocument, parseFile, h, docxMime]

/-- Witness for C3 at a concrete PDF upload against the empty store. -/
theorem c3_witness :
    (∃ e,
      (addDocument ⟨[], [], []⟩ ⟨"a.pdf", "application/pdf", 3, "hi"⟩ 0 "r").2 =
        Except.error e) ∧
    (addDocument ⟨[], [], []⟩ ⟨"a.pdf", "application/pdf", 3, "hi"⟩ 0 "r").1 = ⟨[], [], []⟩ ∧
    ((addDocument ⟨[], [], []⟩ ⟨"a.pdf", "application/pdf", 3, "hi"⟩ 0 "r").1).documents = [] ∧
    ((addDocument ⟨[], [], []⟩ ⟨"a.pdf", "application/pdf", 3, "hi"⟩ 0 "r").1).persisted = [] ∧
    ((addDocument ⟨[], [], []⟩ ⟨"a.pdf", "application/pdf", 3, "hi"⟩ 0 "r").1).notifications = [] ∧
    (getStats (addDocument ⟨[], [], []⟩ ⟨"a.pdf", "application/pdf", 3, "hi"⟩ 0 "r").1).total =
      (getStats ⟨[], [], []⟩).total :=
  c3_addDocument_unsupported ⟨[], [], []⟩ ⟨"a.pdf", "application/pdf", 3, "hi"⟩ 0 "r"
    (Or.inl rfl)

/-- Claim C8: `formatContext` of the empty sequence is the empty string,
and of any nonempty sequence is exactly one header line, then one block per
chunk in input order — `"[Source: {docName}, Chunk {chunkIndex + 1}]"` and
the chunk text, 1-based chunk numbers — joined by the fixed separator,
then exactly one footer line. -/
theorem c8_formatContext_shape :
    formatContext [] = "" ∧
    ∀ (c : ScoredChunk) (cs : List ScoredChunk),
      formatContext (c :: cs) =
        "=== RELEVANT DOCUMENT CONTEXT ===\n" ++
          String.intercalate "\n\n---\n\n"
            ((c :: cs).map fun item =>
              "[Source: " ++ item.docName ++ ", Chunk " ++ toString (item.chunkIndex + 1)
                ++ "]\n" ++ item.chunk) ++
          "\n=== END CONTEXT ===\n\n" :=
  ⟨rfl, fun _ _ => rfl⟩

/-- Claim C10: `toggleDocument` with an id not in the collection is a
complete no-op — the state (collection, persisted value, notification log)
is unchanged — whereas `removeDocument` with an absent id still rewrites
the persisted collection and notifies listeners. -/
theorem c10_toggle_absent_noop (st : StoreState) (docId : String)
    (h : ∀ d ∈ st.documents, d.id ≠ docId) :
    toggleDocument st docId = st ∧
    (removeDocument st docId).documents = st.documents ∧
    (removeDocument st docId).persisted = st.documents ∧
    (removeDocument st docId).notifications = st.notifications ++ [st.documents] := by
  have hany : st.documents.any (fun d => d.id = docId) = false := by
    simp only [List.any_eq_false, decide_eq_true_eq]
    exact h
  have hfilter : st.documents.filter (fun d => d.id ≠ docId) = st.documents := by
    apply List.filter_eq_self.mpr
    intro d hd
    simpa using h d hd
  refine ⟨?_, ?_, ?_, ?_⟩ <;>
    · simp [toggleDocument, removeDocument, saveDocuments, hany, hfilter]
      try exact h

/-- Witness for C10: toggling a missing id against a one-document store. -/
theorem c10_witness :
    toggleDocument ⟨[scenarioDoc], [scenarioDoc], []⟩ "missing" =
      ⟨[scenarioDoc], [scenarioDoc], []⟩ ∧
    (removeDocument ⟨[scenarioDoc], [scenarioDoc], []⟩ "missing").documents = [scenarioDoc] ∧
    (removeDocument ⟨[scenarioDoc], [scenarioDoc], []⟩ "missing").persisted = [scenarioDoc] ∧
    (removeDocument ⟨[scenarioDoc], [scenarioDoc], []⟩ "missing").notifications =
      [] ++ [[scenarioDoc]] :=
  c10_toggle_absent_noop ⟨[scenarioDoc], [scenarioDoc], []⟩ "missing"
    (by intro d hd; simp at hd; subst hd; decide)

/-! ### Id generation (claim C9) -/

theorem dval_digitChar : ∀ k < 10, dval (Nat.digitChar k) = k := by decide

theorem digitChar_ne_underscore : ∀ k < 10, Nat.digitChar k ≠ '_' := by decide

/-- `Nat.toDigitsCore` prepends a digit string of the right value. -/
theorem toDigitsCore_val :
    ∀ (fuel n : Nat) (ds : List Char), n < fuel →
      ∃ pre, Nat.toDigitsCore 10 fuel n ds = pre ++ ds ∧ decVal pre = n := by
  intro fuel
  induction fuel with
  | zero => intro n ds h; exact absurd h (Nat.not_lt_zero n)
  | succ f ih =>
    intro n ds h
    by_cases h0 : n / 10 = 0
    · refine ⟨[Nat.digitChar (n % 10)], ?_, ?_⟩
      · simp [Nat.toDigitsCore, h0]
      · have hn : n < 10 := by omega
        have : n % 10 = n := Nat.mod_eq_of_lt hn
        simp [decVal, this, dval_digitChar n hn]
    · have hdiv : n / 10 < f := by
        have h1 : n / 10 < n := Nat.div_lt_self (Nat.pos_of_ne_zero (by
          intro hn; exact h0 (by simp [hn]))) (by decide)
        omega
      obtain ⟨pre, hpre, hval⟩ := ih (n / 10) (Nat.digitChar (n % 10) :: ds) hdiv
      refine ⟨pre ++ [Nat.digitChar (n % 10)], ?_, ?_⟩
      · simp [Nat.toDigitsCore, h0, hpre]
      · have hlt : n % 10 < 10 := Nat.mod_lt n (by decide)
        simp [decVal, List.foldl_append, dval_digitChar (n % 10) hlt]
        show decVal pre * 10 + n % 10 = n
        rw [hval]
        omega

/-- Every character of `Nat.toDigitsCore` output is a digit character or
comes from the accumulator. -/
theorem toDigitsCore_mem :
    ∀ (fuel n : Nat) (ds : List Char) (c : Char),
      c ∈ Nat.toDigitsCore 10 fuel n ds → c ∈ ds ∨ ∃ m, m < 10 ∧ c = Nat.digitChar m := by
  intro fuel
  induction fuel with
  | zero => intro n ds c hc; exact Or.inl hc
  | succ f ih =>
    intro n ds c hc
    by_cases h0 : n / 10 = 0
    · simp only [Nat.toDigitsCore, h0, if_pos] at hc
      rcases List.mem_cons.mp hc with h' | h'
      · exact Or.inr ⟨n % 10, Nat.mod_lt n (by decide), h'⟩
      · exact Or.inl h'
    · simp only [Nat.toDigitsCore, h0, if_neg, ite_false] at hc
      rcases ih (n / 10) (Nat.digitChar (n % 10) :: ds) c hc with h' | h'
      · rcases List.mem_cons.mp h' with h'' | h''
        · exact Or.inr ⟨n % 10, Nat.mod_lt n (by decide), h''⟩
        · exact Or.inl h''
      · exact Or.inr h'

/-- The decimal rendering of a natural number never contains an
underscore. -/
theorem toString_nat_no_underscore (n : Nat) : '_' ∉ (toString n).data := by
  intro hmem
  have hm : '_' ∈ Nat.toDigitsCore 10 (n + 1) n [] := hmem
  rcases toDigitsCore_mem (n + 1) n [] '_' hm with h | ⟨m, hm10, he⟩
  · simp at h
  · exact digitChar_ne_underscore m hm10 he.symm

/-- Decimal rendering is injective. -/
theorem toString_nat_inj {n1 n2 : Nat} (h : toString n1 = toString n2) : n1 = n2 := by
  obtain ⟨p1, e1, v1⟩ := toDigitsCore_val (n1 + 1) n1 [] (Nat.lt_succ_self n1)
  obtain ⟨p2, e2, v2⟩ := toDigitsCore_val (n2 + 1) n2 [] (Nat.lt_succ_self n2)
  have hdata : Nat.toDigitsCore 10 (n1 + 1) n1 [] = Nat.toDigitsCore 10 (n2 + 1) n2 [] :=
    congrArg String.data h
  rw [e1, e2, List.append_nil, List.append_nil] at hdata
  rw [← v1, ← v2, hdata]

/-- Splitting at the first underscore of an underscore-free-prefix
concatenation is unambiguous. -/
theorem append_underscore_inj :
    ∀ (a c b d : List Char), '_' ∉ a → '_' ∉ c →
      a ++ '_' :: b = c ++ '_' :: d → a = c ∧ b = d := by
  intro a
  induction a with
  | nil =>
    intro c b d _ hc h
    cases c with
    | nil => simpa using h
    | cons y ys =>
      simp only [List.nil_append, List.cons_append, List.cons.injEq] at h
      exact absurd (h.1 ▸ List.mem_cons_self y ys) hc
  | cons x xs ih =>
    intro c b d ha hc h
    cases c with
    | nil =>
      simp only [List.cons_append, List.nil_append, List.cons.injEq] at h
      exact absurd (h.1 ▸ List.mem_cons_self x xs) ha
    | cons y ys =>
      simp only [List.cons_append, List.cons.injEq] at h
      obtain ⟨rfl, h2⟩ := h
      have ha' : '_' ∉ xs := fun hm => ha (List.mem_cons_of_mem _ hm)
      have hc' : '_' ∉ ys := fun hm => hc (List.mem_cons_of_mem _ hm)
      obtain ⟨rfl, rfl⟩ := ih ys b d ha' hc' h2
      exact ⟨rfl, rfl⟩

/-- The generated id determines the timestamp and the random suffix: the
decimal timestamp rendering contains no underscore, so the first
underscore after the `doc_` prefix delimits it unambiguously. -/
theorem mkDocId_inj {n1 n2 : Nat} {r1 r2 : String}
    (h : mkDocId n1 r1 = mkDocId n2 r2) : n1 = n2 ∧ r1 = r2 := by
  have hd : ('d' :: 'o' :: 'c' :: '_' :: ((toString n1).data ++ '_' :: r1.data) : List Char)
      = 'd' :: 'o' :: 'c' :: '_' :: ((toString n2).data ++ '_' :: r2.data) := by
    have := congrArg String.data h
    simpa [mkDocId] using this
  simp only [List.cons.injEq, true_and] at hd
  obtain ⟨hn, hr⟩ := append_underscore_inj (toString n1).data (toString n2).data
    r1.data r2.data (toString_nat_no_underscore n1) (toString_nat_no_underscore n2) hd
  exact ⟨toString_nat_inj (String.ext hn), String.ext hr⟩

/-- Every generated id arises from a successful ingestion in the
sequence. -/
theorem mem_genIds {s : String} {ops : List StoreOp} (h : s ∈ genIds ops) :
    ∃ f now rand, StoreOp.add f now rand ∈ ops ∧ s = mkDocId now rand := by
  rw [genIds, List.mem_filterMap] at h
  obtain ⟨op, hop, he⟩ := h
  cases op with
  | add f now rand =>
    cases hpf : parseFile f with
    | ok v =>
      refine ⟨f, now, rand, hop, ?_⟩
      simp [genIdOf, hpf] at he
      exact he.symm
    | error e => simp [genIdOf, hpf] at he
  | remove i => simp [genIdOf] at he
  | toggle i => simp [genIdOf] at he
  | clear => simp [genIdOf] at he

/-- Every ingestion contributes its `(now, rand)` pair to `addPairs`. -/
theorem mem_addPairs {f : JsFile} {now : Nat} {rand : String} {ops : List StoreOp}
    (h : StoreOp.add f now rand ∈ ops) : (now, rand) ∈ addPairs ops := by
  rw [addPairs, List.mem_filterMap]
  exact ⟨StoreOp.add f now rand, h, rfl⟩

/-- Every `addPairs` entry is the pair of some ingestion. -/
theorem mem_addPairs_inv {p : Nat × String} {ops : List StoreOp}
    (h : p ∈ addPairs ops) : ∃ f, StoreOp.add f p.1 p.2 ∈ ops := by
  rw [addPairs, List.mem_filterMap] at h
  obtain ⟨op, hop, he⟩ := h
  cases op with
  | add f now rand =>
    simp [addPairOf] at he
    exact ⟨f, by rw [← he]; exact hop⟩
  | remove i => simp [addPairOf] at he
  | toggle i => simp [addPairOf] at he
  | clear => simp [addPairOf] at he

/-- Claim C9, counterexample: two ingestions that receive the same
`Date.now()` value and the same random suffix produce identical ids — the
store enforces no uniqueness, so the stated lifetime-uniqueness invariant
fails. -/
theorem c9_counterexample :
    ((runOps ⟨[], [], []⟩
        [.add plainFile 5 "xyz", .add plainFile 5 "xyz"]).documents.map
      (fun d => d.id)) = ["doc_5_xyz", "doc_5_xyz"] ∧
    ¬ ((runOps ⟨[], [], []⟩
        [.add plainFile 5 "xyz", .add plainFile 5 "xyz"]).documents.map
      (fun d => d.id)).Nodup := by
  decide

/-- Claim C9, amended: over any sequence of store operations, the ids
generated by `addDocument` are pairwise distinct — including ids of
documents removed later — provided no two ingestions receive the same
`(Date.now(), random suffix)` pair (supplied by the environment; the store
itself never checks uniqueness). -/
theorem c9_amended (ops : List StoreOp)
    (hp : (addPairs ops).Nodup) :
    (genIds ops).Nodup := by
  have hsub : List.Sublist (genIds ops) ((addPairs ops).map (fun p => mkDocId p.1 p.2)) := by
    clear hp
    induction ops with
    | nil => simp [genIds, addPairs]
    | cons op ops ih =>
      cases op with
      | add f now rand =>
        cases hpf : parseFile f with
        | ok v =>
          simpa [genIds, addPairs, List.filterMap_cons, genIdOf, addPairOf, hpf]
            using ih.cons₂ (mkDocId now rand)
        | error e =>
          simpa [genIds, addPairs, List.filterMap_cons, genIdOf, addPairOf, hpf]
            using ih.cons (mkDocId now rand)
      | remove i => simpa [genIds, addPairs, List.filterMap_cons, genIdOf, addPairOf] using ih
      | toggle i => simpa [genIds, addPairs, List.filterMap_cons, genIdOf, addPairOf] using ih
      | clear => simpa [genIds, addPairs, List.filterMap_cons, genIdOf, addPairOf] using ih
  refine hsub.nodup (hp.map_on ?_)
  intro x hx y hy hxy
  obtain ⟨hn, hrr⟩ := mkDocId_inj hxy
  exact Prod.ext hn hrr

/-- Witness for the amended C9 at a concrete two-ingestion sequence. -/
theorem c9_witness :
    (genIds [StoreOp.add plainFile 1 "ab", StoreOp.add plainFile 2 "cd"]).Nodup := by
  apply c9_amended
  decide

/-! ### Stable tie-break (claim C7) -/

/-- Claim C7: `retrieveContext` is the `topK`-prefix of the stable
descending-score sort of the emitted chunks; every sorted entry's tag is
its emission position (document order, then chunk index); and whenever two
entries have equal score, the earlier output position carries the smaller
emission position — the sort never reorders equal-score entries. -/
theorem c7_stable_tiebreak (docs : List Document) (query : String) (topK : Nat) :
    retrieveContext docs query topK =
      (if (docs.filter (fun d => d.active)).isEmpty then []
       else ((sortScoredIdx (activeChunks docs query)).map Prod.snd).take topK) ∧
    (∀ q ∈ sortScoredIdx (activeChunks docs query),
      (activeChunks docs query).get? q.1 = some q.2) ∧
    ∀ (i j : Fin (sortScoredIdx (activeChunks docs query)).length),
      i < j →
      ((sortScoredIdx (activeChunks docs query)).get i).2.score =
        ((sortScoredIdx (activeChunks docs query)).get j).2.score →
      ((sortScoredIdx (activeChunks docs query)).get i).1 <
        ((sortScoredIdx (activeChunks docs query)).get j).1 := by
  have hperm : List.Perm (sortScoredIdx (activeChunks docs query))
      ((activeChunks docs query).enum) :=
    List.perm_insertionSort scoredLE _
  have hpos : ∀ q ∈ sortScoredIdx (activeChunks docs query),
      (activeChunks docs query).get? q.1 = some q.2 := by
    intro q hq
    exact List.mem_enum_iff_get?.mp (hperm.subset hq)
  refine ⟨rfl, hpos, ?_⟩
  intro i j hij heq
  have hs : (sortScoredIdx (activeChunks docs query)).Sorted scoredLE :=
    List.sorted_insertionSort scoredLE _
  rcases hs.rel_get_of_lt hij with hlt | ⟨_, hle⟩
  · omega
  · have hne : ((sortScoredIdx (activeChunks docs query)).get i).1 ≠
        ((sortScoredIdx (activeChunks docs query)).get j).1 := by
      intro hfst
      have e1 := hpos ((sortScoredIdx (activeChunks docs query)).get i)
        (List.get_mem (sortScoredIdx (activeChunks docs query)) i.1 i.2)
      have e2 := hpos ((sortScoredIdx (activeChunks docs query)).get j)
        (List.get_mem (sortScoredIdx (activeChunks docs query)) j.1 j.2)
      rw [hfst] at e1
      have hsnd : ((sortScoredIdx (activeChunks docs query)).get i).2 =
          ((sortScoredIdx (activeChunks docs query)).get j).2 :=
        Option.some_inj.mp (e1.symm.trans e2)
      have hnodup : (sortScoredIdx (activeChunks docs query)).Nodup := by
        have hfst_nodup := List.nodup_enum_map_fst (activeChunks docs query)
        exact (((hperm.map Prod.fst).nodup_iff).mpr hfst_nodup).of_map
      have : i = j := hnodup.get_inj_iff.mp (Prod.ext hfst hsnd)
      exact absurd this (Fin.ne_of_lt hij)
    exact Nat.lt_of_le_of_ne hle hne

/-- Witness for C7 on Scenario A, where the second and third chunks tie at
score 1: position 0 of the sorted list carries emission index 0 and
position 1 carries emission index 1. -/
theorem c7_witness :
    ((sortScoredIdx (activeChunks [scenarioDoc] "two")).get
        ⟨0, by decide⟩).1 <
      ((sortScoredIdx (activeChunks [scenarioDoc] "two")).get ⟨1, by decide⟩).1 :=
  (c7_stable_tiebreak [scenarioDoc] "two" 3).2.2 ⟨0, by decide⟩ ⟨1, by decide⟩
    (by decide) (by decide)

/-! ### Whitespace and trimming toolbox (claims C4, C5, C6) -/

/-- Sentence terminators are not whitespace. -/
theorem isTerm_not_ws {c : Char} (h : isTerm c = true) : jsWS c = false := by
  have h3 : (c = '.' ∨ c = '!') ∨ c = '?' := by
    simpa [isTerm, Bool.or_eq_true, decide_eq_true_eq] using h
  rcases h3 with (rfl | rfl) | rfl <;> rfl

/-- A list containing a non-whitespace character survives `dropWhile`. -/
theorem dropWhile_ne_nil_of_mem {l : List Char} {c : Char} (hm : c ∈ l)
    (hc : jsWS c = false) : l.dropWhile jsWS ≠ [] := by
  intro h0
  have h1 := List.dropWhile_eq_nil_iff.mp h0 c hm
  rw [hc] at h1
  exact Bool.noConfusion h1

/-- A nonempty suffix has the same last element as the whole list. -/
theorem getLast?_of_sfx {α : Type} {l s : List α} (h : s <:+ l) (hs : s ≠ []) :
    l.getLast? = s.getLast? := by
  obtain ⟨pre, rfl⟩ := h
  rw [List.getLast?_append, List.getLast?_eq_getLast s hs]
  rfl

/-- A nonempty prefix has the same head as the whole list. -/
theorem head?_of_pfx {α : Type} {l s : List α} (h : s <+: l) (hs : s ≠ []) :
    l.head? = s.head? := by
  obtain ⟨post, rfl⟩ := h
  cases s with
  | nil => exact absurd rfl hs
  | cons a t => rfl

/-- `dropWhile` keeps a non-whitespace last character. -/
theorem getLast?_dropWhile {l : List Char} {c : Char}
    (hl : l.getLast? = some c) (hc : jsWS c = false) :
    (l.dropWhile jsWS).getLast? = some c := by
  rw [← getLast?_of_sfx (List.dropWhile_suffix jsWS)
    (dropWhile_ne_nil_of_mem (List.mem_of_getLast?_eq_some hl) hc)]
  exact hl

/-- A list whose last element is not whitespace is unchanged by
`rdropWhile`. -/
theorem rdropWhile_eq_self_of_getLast {l : List Char} {c : Char}
    (hl : l.getLast? = some c) (hc : jsWS c = false) :
    l.rdropWhile jsWS = l := by
  apply List.rdropWhile_eq_self_iff.mpr
  intro hne
  have h1 := List.getLast?_eq_getLast l hne
  rw [hl] at h1
  have h2 : c = l.getLast hne := Option.some_inj.mp h1
  rw [← h2, hc]
  exact Bool.false_ne_true

/-- `trimS` of a list ending in a non-whitespace character only strips the
front. -/
theorem trimS_eq_dropWhile {l : List Char} {c : Char}
    (hl : l.getLast? = some c) (hc : jsWS c = false) :
    trimS l = l.dropWhile jsWS :=
  rdropWhile_eq_self_of_getLast (getLast?_dropWhile hl hc) hc

/-- `trimS` keeps a non-whitespace last character. -/
theorem getLast?_trimS {l : List Char} {c : Char}
    (hl : l.getLast? = some c) (hc : jsWS c = false) :
    (trimS l).getLast? = some c := by
  rw [trimS_eq_dropWhile hl hc]
  exact getLast?_dropWhile hl hc

/-- `trimS` of a list ending in a non-whitespace character is nonempty. -/
theorem trimS_ne_nil {l : List Char} {c : Char}
    (hl : l.getLast? = some c) (hc : jsWS c = false) : trimS l ≠ [] := by
  intro h0
  have h1 := getLast?_trimS hl hc
  rw [h0] at h1
  exact Option.noConfusion h1

/-- `endsTerm` survives trimming, appending on the left, and gives
nonemptiness. -/
theorem endsTerm_ne_nil {s : List Char} (h : endsTerm s) : s ≠ [] := by
  obtain ⟨c, hc, -⟩ := h
  intro h0
  rw [h0] at hc
  exact Option.noConfusion hc

/-- Appending a terminator-ended list on the right gives a terminator-ended
list. -/
theorem endsTerm_append {a s : List Char} (h : endsTerm s) :
    endsTerm (a ++ s) := by
  obtain ⟨c, hc, ht⟩ := h
  exact ⟨c, by rw [List.getLast?_append, hc]; rfl, ht⟩

/-- A terminator-ended list's trim is nonempty. -/
theorem endsTerm_trimS_ne_nil {s : List Char} (h : endsTerm s) :
    trimS s ≠ [] := by
  obtain ⟨c, hc, ht⟩ := h
  exact trimS_ne_nil hc (isTerm_not_ws ht)

/-- A terminator-ended list's trim still ends in the terminator. -/
theorem endsTerm_trimS {s : List Char} (h : endsTerm s) : endsTerm (trimS s) := by
  obtain ⟨c, hc, ht⟩ := h
  exact ⟨c, getLast?_trimS hc (isTerm_not_ws ht), ht⟩

/-- `dropWhile` distributes over an append whose left part keeps a
character. -/
theorem dropWhile_append_of_ne_nil {a b : List Char}
    (ha : a.dropWhile jsWS ≠ []) :
    (a ++ b).dropWhile jsWS = a.dropWhile jsWS ++ b := by
  rw [List.dropWhile_append, if_neg]
  simpa [List.isEmpty_iff] using ha

/-- The shape of a trimmed chunk buffer: a seed holding a non-whitespace
character, then a terminator-ended body — trimming strips only the seed's
leading whitespace. -/
theorem trimS_seed_body {seed body : List Char} {c : Char}
    (hs : c ∈ seed) (hcs : jsWS c = false) (hb : endsTerm body) :
    trimS (seed ++ body) = seed.dropWhile jsWS ++ body := by
  obtain ⟨d, hd, hdt⟩ := hb
  have hlast : (seed ++ body).getLast? = some d := by
    rw [List.getLast?_append, hd]; rfl
  rw [trimS_eq_dropWhile hlast (isTerm_not_ws hdt)]
  exact dropWhile_append_of_ne_nil (dropWhile_ne_nil_of_mem hs hcs)

/-- The head of a nonempty trimmed list is not whitespace. -/
theorem head?_trimS_not_ws {l : List Char} {a : Char}
    (h : (trimS l).head? = some a) : jsWS a = false := by
  have hne : trimS l ≠ [] := by
    intro h0; rw [h0] at h; exact Option.noConfusion h
  have hdne : l.dropWhile jsWS ≠ [] := by
    intro h0
    have : trimS l = [] := by rw [trimS, h0]; rfl
    exact hne this
  have hpre : trimS l <+: l.dropWhile jsWS := List.rdropWhile_prefix jsWS _
  have hh : (l.dropWhile jsWS).head? = (trimS l).head? := head?_of_pfx hpre hne
  have hhead := List.head_dropWhile_not jsWS l hdne
  rw [List.head?_eq_head hdne, h] at hh
  have : (l.dropWhile jsWS).head hdne = a := Option.some_inj.mp hh
  rw [← this]
  exact hhead

/-- Trimming is idempotent. -/
theorem trimS_idem (l : List Char) : trimS (trimS l) = trimS l := by
  by_cases hn : trimS l = []
  · rw [hn]; rfl
  · have hdw : (trimS l).dropWhile jsWS = trimS l := by
      cases he : trimS l with
      | nil => exact absurd he hn
      | cons a t =>
        have ha : jsWS a = false := head?_trimS_not_ws (by rw [he]; rfl)
        simp [List.dropWhile_cons, ha]
    show ((trimS l).dropWhile jsWS).rdropWhile jsWS = trimS l
    rw [hdw]
    apply List.rdropWhile_eq_self_iff.mpr
    intro hne
    exact List.rdropWhile_last_not jsWS (l.dropWhile jsWS) hne

/-- `trimS` is an infix of the original list. -/
theorem trimS_infix_orig (l : List Char) : trimS l <:+: l :=
  List.IsPrefix.isInfix (List.rdropWhile_prefix jsWS _) |>.trans
    (List.IsSuffix.isInfix (List.dropWhile_suffix jsWS))

/-- An infix starting with a non-whitespace character survives `dropWhile`
of the host list. -/
theorem isInfix_dropWhile {p l : List Char} {a : Char}
    (hh : p.head? = some a) (ha : jsWS a = false) (h : p <:+: l) :
    p <:+: l.dropWhile jsWS := by
  induction l with
  | nil =>
    have : p = [] := List.eq_nil_of_infix_nil h
    rw [this] at hh; exact Option.noConfusion hh
  | cons c t ih =>
    by_cases hc : jsWS c
    · rw [List.dropWhile_cons, if_pos hc]
      apply ih
      obtain ⟨pre, post, he⟩ := h
      cases pre with
      | nil =>
        simp only [List.nil_append] at he
        cases p with
        | nil => exact absurd hh (by simp)
        | cons x xs =>
          have hx : x = c := by
            have := congrArg List.head? he
            simpa using this
          rw [List.head?_cons] at hh
          have : a = c := by rw [← hx]; exact (Option.some_inj.mp hh).symm
          rw [this] at ha
          rw [ha] at hc
          exact Bool.noConfusion hc
      | cons y ys =>
        refine ⟨ys, post, ?_⟩
        have := congrArg List.tail he
        simpa using this
    · rw [List.dropWhile_cons, if_neg hc]
      exact h

/-! ### Words, joins and the overlap seed (claims C4, C5, C6) -/

/-- Splitting never returns an empty word list. -/
theorem splitP_ne_nil (p : Char → Bool) (l : List Char) : splitP p l ≠ [] := by
  cases l with
  | nil => simp [splitP]
  | cons c cs =>
    by_cases hc : p c
    · simp [splitP, hc]
    · simp only [splitP, hc, if_false]
      cases splitP p cs <;> simp

/-- `join(' ')` on a word list with at least two words. -/
theorem joinSp_cons₂ {w : List Char} {ws : List (List Char)} (h : ws ≠ []) :
    joinSp (w :: ws) = w ++ ' ' :: joinSp ws := by
  cases ws with
  | nil => exact absurd rfl h
  | cons w' ws' => rfl

/-- One-step unfolding of `splitP`. -/
theorem splitP_cons (p : Char → Bool) (a : Char) (t : List Char) :
    splitP p (a :: t) =
      if p a then [] :: splitP p t
      else
        match splitP p t with
        | [] => [[a]]
        | w :: ws => (a :: w) :: ws := rfl

/-- The last word is a suffix of the join. -/
theorem getLast_sfx_joinSp {ws : List (List Char)} {w : List Char}
    (h : ws.getLast? = some w) : w <:+ joinSp ws := by
  induction ws with
  | nil => exact Option.noConfusion h
  | cons x xs ih =>
    cases xs with
    | nil =>
      have hxw : x = w := by simpa using h
      rw [joinSp, hxw]
    | cons y ys =>
      have h' : (y :: ys).getLast? = some w := by simpa using h
      have hsfx := ih h'
      have hstep : joinSp (x :: y :: ys) = x ++ ' ' :: joinSp (y :: ys) :=
        joinSp_cons₂ (List.cons_ne_nil y ys)
      refine hsfx.trans ⟨x ++ [' '], ?_⟩
      rw [hstep]
      simp

/-- The last word of a split ends with the last character of the list, when
that character is not the separator. -/
theorem getLast?_splitP {p : Char → Bool} {c : Char} :
    ∀ {l : List Char}, l.getLast? = some c → p c = false →
      ∃ w, (splitP p l).getLast? = some w ∧ w.getLast? = some c := by
  intro l
  induction l with
  | nil => intro hl _; exact Option.noConfusion hl
  | cons a t ih =>
    intro hl hc
    cases t with
    | nil =>
      have hac : a = c := by simpa using hl
      subst hac
      have hpa : p a = false := hc
      exact ⟨[a], by rw [splitP_cons, if_neg (by simp [hpa])]; rfl, rfl⟩
    | cons b u =>
      have hl' : (b :: u).getLast? = some c := by simpa using hl
      obtain ⟨w, hw1, hw2⟩ := ih hl' hc
      by_cases hpa : p a
      · refine ⟨w, ?_, hw2⟩
        rw [splitP_cons, if_pos hpa]
        rw [List.getLast?_cons, hw1]
        rfl
      · rw [splitP_cons, if_neg hpa]
        cases hsp : splitP p (b :: u) with
        | nil => exact absurd hsp (splitP_ne_nil p (b :: u))
        | cons v vs =>
          rw [hsp] at hw1
          cases vs with
          | nil =>
            have hvw : v = w := by simpa using hw1
            subst hvw
            have hvne : v ≠ [] := by
              intro h0
              rw [h0] at hw2
              exact Option.noConfusion hw2
            refine ⟨a :: v, by simp, ?_⟩
            rw [← hw2]
            cases v with
            | nil => exact absurd rfl hvne
            | cons v0 vt => simp
          | cons v' vs' =>
            exact ⟨w, by simpa using hw1, hw2⟩

/-- `slice(-k)` keeps the last word and is nonempty on nonempty input. -/
theorem sliceNeg_getLast? {ws : List (List Char)} (h : ws ≠ []) (k : Nat) :
    sliceNeg ws k ≠ [] ∧ (sliceNeg ws k).getLast? = ws.getLast? := by
  unfold sliceNeg
  by_cases hk : k = 0
  · simp [hk, h]
  · rw [if_neg hk]
    have hlen : (ws.drop (ws.length - k)).length = ws.length - (ws.length - k) :=
      List.length_drop _ _
    have hne : ws.drop (ws.length - k) ≠ [] := by
      intro h0
      rw [h0] at hlen
      have hwl : 0 < ws.length := List.length_pos.mpr h
      simp at hlen
      omega
    exact ⟨hne, (getLast?_of_sfx (List.drop_suffix _ _) hne).symm⟩

/-- The overlap fragment seeded from a terminator-ended buffer contains the
terminator, a non-whitespace character. -/
theorem seeded_hasNW {cur : List Char} (h : endsTerm cur) (k : Nat) :
    hasNW (joinSp (sliceNeg (splitSp cur) k) ++ [' ']) := by
  obtain ⟨c, hc, ht⟩ := h
  have hcs : (fun x => decide (x = ' ')) c = false := by
    have := isTerm_not_ws ht
    simp only [decide_eq_false_iff_not]
    intro h0
    rw [h0] at this
    exact Bool.noConfusion this
  obtain ⟨w, hw1, hw2⟩ := @getLast?_splitP (fun x => decide (x = ' ')) c cur hc hcs
  have hne : splitSp cur ≠ [] := splitP_ne_nil _ _
  obtain ⟨hsne, hslast⟩ := sliceNeg_getLast? hne k
  have hw1' : (sliceNeg (splitSp cur) k).getLast? = some w := by rw [hslast]; exact hw1
  have hsfx : w <:+ joinSp (sliceNeg (splitSp cur) k) := getLast_sfx_joinSp hw1'
  have hcw : c ∈ w := List.mem_of_getLast?_eq_some hw2
  refine ⟨c, ?_, isTerm_not_ws ht⟩
  exact List.mem_append_left _ (hsfx.subset hcw)

/-! ### The sentence scanner emits terminator-ended sentences (claim C4) -/

/-- Scanner invariant: finished sentences end in terminators and the
pending terminator run holds only terminators. -/
theorem sentFold_inv (l : List Char) :
    ∀ st : SentState,
      (∀ s ∈ st.done, endsTerm s) →
      (∀ c ∈ st.terms, isTerm c = true) →
      (∀ s ∈ (l.foldl sentStep st).done, endsTerm s) ∧
      (∀ c ∈ (l.foldl sentStep st).terms, isTerm c = true) := by
  induction l with
  | nil => exact fun st h1 h2 => ⟨h1, h2⟩
  | cons c cs ih =>
    intro st h1 h2
    rw [List.foldl_cons]
    apply ih
    · intro s hs
      unfold sentStep at hs
      by_cases hc : isTerm c
      · simp only [hc, if_true] at hs
        by_cases hb : st.body.isEmpty <;> simp only [hb, if_true, if_false] at hs <;>
          exact h1 s hs
      · simp only [hc, if_false] at hs
        by_cases ht : st.terms.isEmpty
        · simp only [ht, if_true] at hs
          exact h1 s hs
        · simp only [ht, if_false] at hs
          rcases List.mem_append.mp hs with hs' | hs'
          · exact h1 s hs'
          · have hse : s = st.body ++ st.terms := by simpa using hs'
            have htne : st.terms ≠ [] := by
              intro h0; rw [h0] at ht; exact ht rfl
            refine ⟨st.terms.getLast htne, ?_, ?_⟩
            · rw [hse, List.getLast?_append, List.getLast?_eq_getLast st.terms htne]
              rfl
            · exact h2 _ (List.getLast_mem htne)
    · intro d hd
      unfold sentStep at hd
      by_cases hc : isTerm c
      · simp only [hc, if_true] at hd
        by_cases hb : st.body.isEmpty
        · simp only [hb, if_true] at hd
          exact h2 d hd
        · simp only [hb, if_false] at hd
          rcases List.mem_append.mp hd with hd' | hd'
          · exact h2 d hd'
          · have : d = c := by simpa using hd'
            rw [this]; exact hc
      · simp only [hc, if_false] at hd
        by_cases ht : st.terms.isEmpty <;> simp only [ht, if_true, if_false] at hd
        · exact h2 d hd
        · simp at hd

/-- Every sentence the scanner emits ends in a terminator. -/
theorem sentencesCore_endsTerm {l : List Char} :
    ∀ s ∈ sentencesCore l, endsTerm s := by
  intro s hs
  obtain ⟨h1, h2⟩ := sentFold_inv l ⟨[], [], []⟩ (by simp) (by simp)
  unfold sentencesCore sentFinish at hs
  set st := l.foldl sentStep ⟨[], [], []⟩ with hst
  by_cases ht : st.terms.isEmpty
  · rw [if_pos ht] at hs
    exact h1 s hs
  · rw [if_neg ht] at hs
    rcases List.mem_append.mp hs with hs' | hs'
    · exact h1 s hs'
    · have hse : s = st.body ++ st.terms := by simpa using hs'
      have htne : st.terms ≠ [] := by
        intro h0
        rw [List.isEmpty_iff] at ht
        exact ht h0
      refine ⟨st.terms.getLast htne, ?_, h2 _ (List.getLast_mem htne)⟩
      rw [hse, List.getLast?_append, List.getLast?_eq_getLast st.terms htne]
      rfl

/-! ### Chunker invariants and claim C4 -/

/-- When the regex finds matches, the chunker folds over exactly those. -/
theorem matchSentencesL_matched {l : List Char} (hc : sentencesCore l ≠ []) :
    matchSentencesL l = sentencesCore l := by
  rw [matchSentencesL, if_neg]
  simpa [List.isEmpty_iff] using hc

/-- When the regex finds no match, the chunker folds over `[text]` and
emits at most the trimmed text. -/
theorem chunkList_fallback {l : List Char} (hc : sentencesCore l = [])
    (cs ov : Nat) :
    chunkList l cs ov = if trimS l ≠ [] then [trimS l] else [] := by
  have hstep : chunkStep cs ov ⟨[], [], 0⟩ l = ⟨[], l, l.length⟩ := by
    unfold chunkStep
    split
    · rename_i hcond
      exact absurd rfl hcond.2
    · simp
  unfold chunkList
  rw [matchSentencesL, hc]
  simp only [List.isEmpty_nil, if_true]
  rw [List.foldl_cons, List.foldl_nil, hstep]
  by_cases ht : trimS l = [] <;> simp [ht]

/-- Chunker loop invariant: every emitted chunk ends in a terminator, and
so does the buffer once a sentence has been consumed. -/
theorem chunkFold_inv (cs ov : Nat) :
    ∀ (sents : List (List Char)) (st : CS),
      (∀ s ∈ sents, endsTerm s) →
      (∀ ch ∈ st.chunks, endsTerm ch) →
      (st.cur = [] ∨ endsTerm st.cur) →
      (∀ ch ∈ (sents.foldl (chunkStep cs ov) st).chunks, endsTerm ch) ∧
      ((sents.foldl (chunkStep cs ov) st).cur = [] ∨
        endsTerm (sents.foldl (chunkStep cs ov) st).cur) ∧
      (sents ≠ [] → endsTerm (sents.foldl (chunkStep cs ov) st).cur) := by
  intro sents
  induction sents with
  | nil =>
    intro st _ hch hcur
    exact ⟨hch, hcur, fun h0 => absurd rfl h0⟩
  | cons s rest ih =>
    intro st hs hch hcur
    have hsok : endsTerm s := hs s (List.mem_cons_self s rest)
    have hrest : ∀ s' ∈ rest, endsTerm s' := fun s' h' => hs s' (List.mem_cons_of_mem s h')
    rw [List.foldl_cons]
    have hch' : ∀ ch ∈ (chunkStep cs ov st s).chunks, endsTerm ch := by
      intro ch hmem
      unfold chunkStep at hmem
      split at hmem
      · rename_i hcond
        rcases List.mem_append.mp hmem with h' | h'
        · exact hch ch h'
        · have hce : ch = trimS st.cur := by simpa using h'
          have hcet : endsTerm st.cur := hcur.resolve_left hcond.2
          rw [hce]
          exact endsTerm_trimS hcet
      · exact hch ch hmem
    have hcur' : endsTerm (chunkStep cs ov st s).cur := by
      unfold chunkStep
      split
      · exact endsTerm_append hsok
      · exact endsTerm_append hsok
    obtain ⟨r1, r2, r3⟩ := ih (chunkStep cs ov st s) hrest hch' (Or.inr hcur')
    refine ⟨r1, r2, fun _ => ?_⟩
    by_cases hr0 : rest = []
    · subst hr0
      exact hcur'
    · exact r3 hr0

/-- Claim C4: for every non-empty, non-whitespace-only input, `chunkText`
emits at least one chunk and every emitted chunk is nonempty after
trimming (for any `chunkSize` and `overlap`). -/
theorem c4_chunk_nonempty (text : String) (chunkSize overlap : Nat)
    (h : jsTrim text ≠ "") :
    chunkText text chunkSize overlap ≠ [] ∧
    ∀ ch ∈ chunkText text chunkSize overlap, jsTrim ch ≠ "" := by
  have htrim : trimS text.data ≠ [] := by
    intro h0
    apply h
    show String.mk (trimS text.data) = ""
    rw [h0]
  have main : chunkList text.data chunkSize overlap ≠ [] ∧
      ∀ cl ∈ chunkList text.data chunkSize overlap, trimS cl ≠ [] := by
    by_cases hc : sentencesCore text.data = []
    · rw [chunkList_fallback hc, if_pos htrim]
      refine ⟨by simp, ?_⟩
      intro cl hcl
      have hce : cl = trimS text.data := by simpa using hcl
      rw [hce, trimS_idem]
      exact htrim
    · have hsents : ∀ s ∈ matchSentencesL text.data, endsTerm s := by
        rw [matchSentencesL_matched hc]
        exact sentencesCore_endsTerm
      have hne : matchSentencesL text.data ≠ [] := by
        rw [matchSentencesL_matched hc]
        exact hc
      obtain ⟨h1, _, h3⟩ := chunkFold_inv chunkSize overlap (matchSentencesL text.data)
        ⟨[], [], 0⟩ hsents (by simp) (Or.inl rfl)
      have hcur := h3 hne
      unfold chunkList
      rw [if_pos (endsTerm_trimS_ne_nil hcur)]
      refine ⟨by simp, ?_⟩
      intro cl hcl
      rcases List.mem_append.mp hcl with h' | h'
      · exact endsTerm_trimS_ne_nil (h1 cl h')
      · have hce : cl = trimS (((matchSentencesL text.data).foldl
            (chunkStep chunkSize overlap) ⟨[], [], 0⟩).cur) := by simpa using h'
        rw [hce]
        exact endsTerm_trimS_ne_nil (endsTerm_trimS hcur)
  constructor
  · intro h0
    apply main.1
    unfold chunkText at h0
    exact List.map_eq_nil.mp h0
  · intro ch hch
    unfold chunkText at hch
    obtain ⟨cl, hcl, rfl⟩ := List.mem_map.mp hch
    intro h0
    apply main.2 cl hcl
    have hd := congrArg String.data h0
    simpa [jsTrim] using hd

/-- Witness for C4 on a concrete non-whitespace text. -/
theorem c4_witness :
    chunkText "Hi." 500 50 ≠ [] ∧
    ∀ ch ∈ chunkText "Hi." 500 50, jsTrim ch ≠ "" :=
  c4_chunk_nonempty "Hi." 500 50 (by decide)

/-! ### The instrumented chunker runs in lockstep (claims C5, C6) -/

/-- One step of the plain and instrumented loops: the buffer is
`seed ++ body`, the size counter is its length, every emitted chunk is the
trimmed buffer. -/
theorem chunkStep_eq_seedStep (cs ov : Nat) (a : CS) (b : CSeed) (s : List Char)
    (h1 : a.chunks = b.done.map (fun p => trimS (p.1 ++ p.2)))
    (h2 : a.cur = b.seed ++ b.body)
    (h3 : a.size = (b.seed ++ b.body).length) :
    (chunkStep cs ov a s).chunks =
      (seedStep cs ov b s).done.map (fun p => trimS (p.1 ++ p.2)) ∧
    (chunkStep cs ov a s).cur = (seedStep cs ov b s).seed ++ (seedStep cs ov b s).body ∧
    (chunkStep cs ov a s).size =
      ((seedStep cs ov b s).seed ++ (seedStep cs ov b s).body).length := by
  unfold chunkStep seedStep
  rw [h1, h2, h3]
  by_cases hcond : (b.seed ++ b.body).length + s.length > cs ∧ b.seed ++ b.body ≠ []
  · rw [if_pos hcond, if_pos hcond]
    refine ⟨by simp, rfl, by simp only [List.length_append]⟩
  · rw [if_neg hcond, if_neg hcond]
    refine ⟨rfl, by simp, by simp only [List.length_append]; omega⟩

/-- The lockstep correspondence over a whole sentence list. -/
theorem foldl_chunkStep_eq_seedStep (cs ov : Nat) :
    ∀ (sents : List (List Char)) (a : CS) (b : CSeed),
      a.chunks = b.done.map (fun p => trimS (p.1 ++ p.2)) →
      a.cur = b.seed ++ b.body →
      a.size = (b.seed ++ b.body).length →
      (sents.foldl (chunkStep cs ov) a).chunks =
        (sents.foldl (seedStep cs ov) b).done.map (fun p => trimS (p.1 ++ p.2)) ∧
      (sents.foldl (chunkStep cs ov) a).cur =
        (sents.foldl (seedStep cs ov) b).seed ++ (sents.foldl (seedStep cs ov) b).body := by
  intro sents
  induction sents with
  | nil => exact fun a b hh1 hh2 _ => ⟨hh1, hh2⟩
  | cons s rest ih =>
    intro a b hh1 hh2 hh3
    rw [List.foldl_cons, List.foldl_cons]
    obtain ⟨g1, g2, g3⟩ := chunkStep_eq_seedStep cs ov a b s hh1 hh2 hh3
    exact ih (chunkStep cs ov a s) (seedStep cs ov b s) g1 g2 g3

/-- `chunkText`'s chunks are exactly the trimmed `(seed, body)` buffers of
the instrumented loop. -/
theorem chunkList_eq_chunkSeeds (l : List Char) (cs ov : Nat) :
    chunkList l cs ov = (chunkSeeds l cs ov).map (fun p => trimS (p.1 ++ p.2)) := by
  obtain ⟨h1, h2⟩ := foldl_chunkStep_eq_seedStep cs ov (matchSentencesL l)
    ⟨[], [], 0⟩ ⟨[], [], []⟩ rfl rfl rfl
  unfold chunkList chunkSeeds
  dsimp only
  rw [h1, h2]
  by_cases hC : trimS (((matchSentencesL l).foldl (seedStep cs ov) ⟨[], [], []⟩).seed ++
      ((matchSentencesL l).foldl (seedStep cs ov) ⟨[], [], []⟩).body) = []
  · rw [if_neg (by simpa using hC), if_neg (by simpa using hC)]
  · rw [if_pos hC, if_pos hC]
    simp

/-- One instrumented step preserves the chunker invariants: bodies end in
terminators, the first seed is empty and later seeds hold ink, the bodies
concatenate to the consumed sentences, and sentence occurrences survive. -/
theorem seedStep_inv (cs ov : Nat) (st : CSeed) (s : List Char) (hsok : endsTerm s)
    (hdone : ∀ p ∈ st.done, endsTerm p.2)
    (hbody : st.body = [] ∨ endsTerm st.body)
    (hbs : st.body = [] → st.seed = [])
    (hseeds : seedsOK st) :
    (∀ p ∈ (seedStep cs ov st s).done, endsTerm p.2) ∧
    endsTerm (seedStep cs ov st s).body ∧
    seedsOK (seedStep cs ov st s) ∧
    bodiesFlat (seedStep cs ov st s) = bodiesFlat st ++ s ∧
    (∀ x : List Char, ((∃ p ∈ st.done, x <:+: p.2) ∨ x <:+: st.body) →
      (∃ p ∈ (seedStep cs ov st s).done, x <:+: p.2) ∨
        x <:+: (seedStep cs ov st s).body) ∧
    s <:+: (seedStep cs ov st s).body := by
  unfold seedStep
  by_cases hcond : (st.seed ++ st.body).length + s.length > cs ∧ st.seed ++ st.body ≠ []
  · rw [if_pos hcond]
    have hbne : st.body ≠ [] := by
      intro h0
      have hse := hbs h0
      apply hcond.2
      rw [h0, hse]
      rfl
    have hbt : endsTerm st.body := hbody.resolve_left hbne
    have hcur : endsTerm (st.seed ++ st.body) := endsTerm_append hbt
    refine ⟨?_, hsok, ?_, ?_, ?_, List.infix_rfl⟩
    · intro p hp
      rcases List.mem_append.mp hp with h' | h'
      · exact hdone p h'
      · have hpe : p = (st.seed, st.body) := by simpa using h'
        rw [hpe]
        exact hbt
    · unfold seedsOK at hseeds ⊢
      cases hd : st.done with
      | nil =>
        rw [hd] at hseeds
        simp only [hd, List.nil_append]
        exact ⟨hseeds, by simp, seeded_hasNW hcur (ov / 5)⟩
      | cons p₀ r =>
        rw [hd] at hseeds
        obtain ⟨hp₀, hr, hsd⟩ := hseeds
        simp only [hd, List.cons_append]
        refine ⟨hp₀, ?_, seeded_hasNW hcur (ov / 5)⟩
        intro q hq
        rcases List.mem_append.mp hq with h' | h'
        · exact hr q h'
        · have hqe : q = (st.seed, st.body) := by simpa using h'
          rw [hqe]
          exact hsd
    · unfold bodiesFlat
      simp [List.append_assoc]
    · intro x hx
      rcases hx with ⟨p, hp, hxp⟩ | hx'
      · exact Or.inl ⟨p, List.mem_append_left _ hp, hxp⟩
      · exact Or.inl ⟨(st.seed, st.body), List.mem_append_right _ (by simp), hx'⟩
  · rw [if_neg hcond]
    refine ⟨hdone, endsTerm_append hsok, hseeds, ?_, ?_, ?_⟩
    · unfold bodiesFlat
      simp [List.append_assoc]
    · intro x hx
      rcases hx with ⟨p, hp, hxp⟩ | hx'
      · exact Or.inl ⟨p, hp, hxp⟩
      · exact Or.inr (hx'.trans (List.IsPrefix.isInfix (List.prefix_append st.body s)))
    · exact List.IsSuffix.isInfix (List.suffix_append st.body s)

/-- The instrumented chunker invariant over a whole sentence list. -/
theorem seedFold_inv (cs ov : Nat) :
    ∀ (sents : List (List Char)) (st : CSeed),
      (∀ s ∈ sents, endsTerm s) →
      (∀ p ∈ st.done, endsTerm p.2) →
      (st.body = [] ∨ endsTerm st.body) →
      (st.body = [] → st.seed = []) →
      seedsOK st →
      (∀ p ∈ (sents.foldl (seedStep cs ov) st).done, endsTerm p.2) ∧
      ((sents.foldl (seedStep cs ov) st).body = [] ∨
        endsTerm (sents.foldl (seedStep cs ov) st).body) ∧
      ((sents.foldl (seedStep cs ov) st).body = [] →
        (sents.foldl (seedStep cs ov) st).seed = []) ∧
      seedsOK (sents.foldl (seedStep cs ov) st) ∧
      bodiesFlat (sents.foldl (seedStep cs ov) st) = bodiesFlat st ++ sents.flatten ∧
      (sents ≠ [] → endsTerm (sents.foldl (seedStep cs ov) st).body) ∧
      (∀ x : List Char,
        ((∃ p ∈ st.done, x <:+: p.2) ∨ x <:+: st.body) ∨ x ∈ sents →
        (∃ p ∈ (sents.foldl (seedStep cs ov) st).done, x <:+: p.2) ∨
          x <:+: (sents.foldl (seedStep cs ov) st).body) := by
  intro sents
  induction sents with
  | nil =>
    intro st _ hdone hbody hbs hseeds
    refine ⟨hdone, hbody, hbs, hseeds, by simp [bodiesFlat], fun h0 => absurd rfl h0, ?_⟩
    intro x hx
    rcases hx with hx' | hx'
    · exact hx'
    · exact absurd hx' (List.not_mem_nil x)
  | cons s rest ih =>
    intro st hs hdone hbody hbs hseeds
    have hsok : endsTerm s := hs s (List.mem_cons_self s rest)
    have hrest : ∀ s' ∈ rest, endsTerm s' := fun s' h' => hs s' (List.mem_cons_of_mem s h')
    obtain ⟨g1, g2, g3, g4, g5, g6⟩ := seedStep_inv cs ov st s hsok hdone hbody hbs hseeds
    rw [List.foldl_cons]
    obtain ⟨r1, r2, r3, r4, r5, r6, r7⟩ := ih (seedStep cs ov st s) hrest g1 (Or.inr g2)
      (fun h0 => absurd h0 (endsTerm_ne_nil g2)) g3
    refine ⟨r1, r2, r3, r4, ?_, ?_, ?_⟩
    · rw [r5, g4]
      simp [List.append_assoc]
    · intro _
      by_cases hr0 : rest = []
      · subst hr0
        exact g2
      · exact r6 hr0
    · intro x hx
      rcases hx with hx' | hx'
      · exact r7 x (Or.inl (g5 x hx'))
      · rcases List.mem_cons.mp hx' with rfl | hx''
        · exact r7 x (Or.inl (Or.inr g6))
        · exact r7 x (Or.inr hx'')

/-- A terminator-ended list holds ink. -/
theorem endsTerm_hasNW {l : List Char} (h : endsTerm l) : hasNW l := by
  obtain ⟨c, hc, ht⟩ := h
  exact ⟨c, List.mem_of_getLast?_eq_some hc, isTerm_not_ws ht⟩

/-- A nonempty concatenation of terminator-ended lists is terminator
ended. -/
theorem endsTerm_flatten : ∀ {bs : List (List Char)}, bs ≠ [] →
    (∀ b ∈ bs, endsTerm b) → endsTerm bs.flatten := by
  intro bs
  induction bs with
  | nil => exact fun hne _ => absurd rfl hne
  | cons b r ih =>
    intro _ h
    cases hr : r with
    | nil =>
      simpa using h b (by simp)
    | cons b' r' =>
      rw [List.flatten_cons]
      apply endsTerm_append
      rw [← hr]
      exact ih (by simp [hr]) (fun b'' hb => h b'' (List.mem_cons_of_mem b hb))

/-- Stripping the surviving seed fragments and concatenating reconstructs
the trimmed body concatenation. -/
theorem strippedChunks_flatten (p₀ : List Char × List Char)
    (rest : List (List Char × List Char))
    (h0 : p₀.1 = []) (h1 : endsTerm p₀.2)
    (h2 : ∀ q ∈ rest, endsTerm q.2) (h3 : ∀ q ∈ rest, hasNW q.1) :
    (strippedChunks (p₀ :: rest)).flatten =
      trimS ((p₀ :: rest).map Prod.snd).flatten := by
  have hfirst : trimS (p₀.1 ++ p₀.2) = p₀.2.dropWhile jsWS := by
    rw [h0, List.nil_append]
    obtain ⟨c, hc, ht⟩ := h1
    exact trimS_eq_dropWhile hc (isTerm_not_ws ht)
  have hentry : ∀ q ∈ rest,
      (trimS (q.1 ++ q.2)).drop (q.1.dropWhile jsWS).length = q.2 := by
    intro q hq
    obtain ⟨c, hcm, hcw⟩ := h3 q hq
    rw [trimS_seed_body hcm hcw (h2 q hq)]
    exact List.drop_left _ _
  show (trimS (p₀.1 ++ p₀.2) ::
      rest.map (fun q => (trimS (q.1 ++ q.2)).drop (q.1.dropWhile jsWS).length)).flatten = _
  rw [List.flatten_cons, hfirst, List.map_congr_left hentry]
  cases hr : rest with
  | nil =>
    obtain ⟨c, hc, ht⟩ := h1
    simp [trimS_eq_dropWhile hc (isTerm_not_ws ht)]
  | cons q r' =>
    have hrne : rest ≠ [] := by rw [hr]; simp
    have hT : endsTerm (rest.map Prod.snd).flatten := by
      apply endsTerm_flatten (by simpa using hrne)
      intro b hb
      obtain ⟨q', hq', rfl⟩ := List.mem_map.mp hb
      exact h2 q' hq'
    obtain ⟨c, hcm, hcw⟩ := endsTerm_hasNW h1
    rw [← hr]
    have hRHS : trimS ((p₀ :: rest).map Prod.snd).flatten =
        p₀.2.dropWhile jsWS ++ (rest.map Prod.snd).flatten := by
      rw [List.map_cons, List.flatten_cons]
      exact trimS_seed_body hcm hcw hT
    rw [hRHS]

/-- In the matched case the instrumented chunker produces a first pair with
an empty seed, later pairs with inked seeds, terminator-ended bodies whose
concatenation is the sentence concatenation, and a home pair for every
sentence. -/
theorem chunkSeeds_matched (l : List Char) (cs ov : Nat)
    (hc : sentencesCore l ≠ []) :
    ∃ p₀ rest, chunkSeeds l cs ov = p₀ :: rest ∧
      p₀.1 = [] ∧ (∀ q ∈ rest, hasNW q.1) ∧
      (∀ q ∈ chunkSeeds l cs ov, endsTerm q.2) ∧
      ((chunkSeeds l cs ov).map Prod.snd).flatten = (matchSentencesL l).flatten ∧
      (∀ x : List Char, x ∈ matchSentencesL l →
        ∃ q ∈ chunkSeeds l cs ov, x <:+: q.2) := by
  have hsents : ∀ s ∈ matchSentencesL l, endsTerm s := by
    rw [matchSentencesL_matched hc]
    exact sentencesCore_endsTerm
  have hne : matchSentencesL l ≠ [] := by
    rw [matchSentencesL_matched hc]
    exact hc
  obtain ⟨r1, _, _, r4, r5, r6, r7⟩ := seedFold_inv cs ov (matchSentencesL l)
    ⟨[], [], []⟩ hsents (by simp) (Or.inl rfl) (fun _ => rfl) (by simp [seedsOK])
  set F := (matchSentencesL l).foldl (seedStep cs ov) (⟨[], [], []⟩ : CSeed) with hF
  have hbt : endsTerm F.body := r6 hne
  have happ : chunkSeeds l cs ov = F.done ++ [(F.seed, F.body)] := by
    unfold chunkSeeds
    dsimp only
    rw [← hF, if_pos (endsTerm_trimS_ne_nil (endsTerm_append hbt))]
  have hflat : ((chunkSeeds l cs ov).map Prod.snd).flatten =
      (matchSentencesL l).flatten := by
    rw [happ]
    have h5 := r5
    simp only [bodiesFlat, List.map_nil, List.flatten_nil, List.nil_append] at h5
    simp only [List.map_append, List.flatten_append, List.map_cons, List.map_nil,
      List.flatten_cons, List.flatten_nil, List.append_nil]
    exact h5
  have hdone_eT : ∀ q ∈ chunkSeeds l cs ov, endsTerm q.2 := by
    rw [happ]
    intro q hq
    rcases List.mem_append.mp hq with h' | h'
    · exact r1 q h'
    · have hqe : q = (F.seed, F.body) := by simpa using h'
      rw [hqe]
      exact hbt
  have hwit : ∀ x ∈ matchSentencesL l, ∃ q ∈ chunkSeeds l cs ov, x <:+: q.2 := by
    intro x hx
    rcases r7 x (Or.inr hx) with ⟨p, hp, hxp⟩ | hx'
    · exact ⟨p, by rw [happ]; exact List.mem_append_left _ hp, hxp⟩
    · exact ⟨(F.seed, F.body), by rw [happ]; exact List.mem_append_right _ (by simp), hx'⟩
  cases hd : F.done with
  | nil =>
    have hse : F.seed = [] := by
      unfold seedsOK at r4
      rw [hd] at r4
      exact r4
    refine ⟨(F.seed, F.body), [], ?_, hse, by simp, hdone_eT, hflat, hwit⟩
    rw [happ, hd]
    rfl
  | cons p₀ r =>
    have hsplit : p₀.1 = [] ∧ (∀ q ∈ r, hasNW q.1) ∧ hasNW F.seed := by
      unfold seedsOK at r4
      rw [hd] at r4
      exact r4
    refine ⟨p₀, r ++ [(F.seed, F.body)], ?_, hsplit.1, ?_, hdone_eT, hflat, hwit⟩
    · rw [happ, hd]
      rfl
    · intro q hq
      rcases List.mem_append.mp hq with h' | h'
      · exact hsplit.2.1 q h'
      · have hqe : q = (F.seed, F.body) := by simpa using h'
        rw [hqe]
        exact hsplit.2.2

/-- The fallback (no regex match) shape of the instrumented chunker. -/
theorem chunkSeeds_fallback {l : List Char} (hc : sentencesCore l = [])
    (cs ov : Nat) :
    chunkSeeds l cs ov = if trimS l ≠ [] then [([], l)] else [] := by
  have hstep : seedStep cs ov ⟨[], [], []⟩ l = ⟨[], [], l⟩ := by
    unfold seedStep
    split
    · rename_i hcond
      exact absurd rfl hcond.2
    · simp
  unfold chunkSeeds
  rw [matchSentencesL, hc]
  simp only [List.isEmpty_nil, if_true]
  rw [List.foldl_cons, List.foldl_nil, hstep]
  by_cases ht : trimS l = [] <;> simp [ht]

/-- Claim C5: the chunks of `chunkText` are the trimmed `(seed, body)`
buffers of the instrumented loop, the first chunk is seeded with nothing,
and concatenating the chunks in order — after stripping from every chunk
except the first the seeded overlap fragment as it survives inside the
trimmed chunk — reconstructs the trimmed concatenation of the original
sentence sequence. -/
theorem c5_chunk_fidelity (text : String) (chunkSize overlap : Nat) :
    chunkText text chunkSize overlap =
      (chunkSeeds text.data chunkSize overlap).map
        (fun p => String.mk (trimS (p.1 ++ p.2))) ∧
    (∀ p, (chunkSeeds text.data chunkSize overlap).head? = some p → p.1 = []) ∧
    (strippedChunks (chunkSeeds text.data chunkSize overlap)).flatten =
      trimS (matchSentencesL text.data).flatten := by
  refine ⟨?_, ?_⟩
  · unfold chunkText
    rw [chunkList_eq_chunkSeeds]
    simp [List.map_map, Function.comp]
  by_cases hc : sentencesCore text.data = []
  · rw [chunkSeeds_fallback hc]
    have hms : matchSentencesL text.data = [text.data] := by
      rw [matchSentencesL, hc]
      rfl
    by_cases ht : trimS text.data = []
    · rw [if_neg (by simpa using ht)]
      refine ⟨by intro p hp; exact Option.noConfusion hp, ?_⟩
      rw [hms]
      simpa [strippedChunks] using ht.symm
    · rw [if_pos ht]
      refine ⟨?_, ?_⟩
      · intro p hp
        have hpe : ([], text.data) = p := by simpa using hp
        rw [← hpe]
      · rw [hms]
        simp [strippedChunks]
  · obtain ⟨p₀, rest, hps, h01, h3, h2, hfl, -⟩ := chunkSeeds_matched text.data
      chunkSize overlap hc
    refine ⟨?_, ?_⟩
    · intro p hp
      rw [hps] at hp
      have hpe : p₀ = p := by simpa using hp
      rw [← hpe]
      exact h01
    · rw [hps]
      rw [strippedChunks_flatten p₀ rest h01 (h2 p₀ (by rw [hps]; simp))
        (fun q hq => h2 q (by rw [hps]; simp [hq])) h3]
      rw [← hps, hfl]

/-- Witness for C5 at the Scenario A content: the first chunk's recorded
seed is empty. -/
theorem c5_witness :
    (chunkSeeds scenarioContent.data 15 50).head? = some ([], "Sentence one.".data) ∧
    (([], "Sentence one.".data) : List Char × List Char).1 = [] :=
  ⟨by decide, (c5_chunk_fidelity scenarioContent 15 50).2.1 _ (by decide)⟩

/-- A sentence occurring in a pair's body occurs, trimmed, in the pair's
chunk. -/
theorem infix_chunk_of_pair {pr : List Char × List Char} {s : List Char}
    (hinf : s <:+: pr.2) (hb : endsTerm pr.2)
    (hseed : pr.1 = [] ∨ hasNW pr.1) (hne : trimS s ≠ []) :
    trimS s <:+: trimS (pr.1 ++ pr.2) := by
  have hts : trimS s <:+: pr.2 := (trimS_infix_orig s).trans hinf
  rcases hseed with h0 | hNW
  · rw [h0, List.nil_append]
    obtain ⟨c, hc, ht⟩ := hb
    rw [trimS_eq_dropWhile hc (isTerm_not_ws ht)]
    cases hh : (trimS s).head? with
    | none => exact absurd (List.head?_eq_none_iff.mp hh) hne
    | some a => exact isInfix_dropWhile hh (head?_trimS_not_ws hh) hts
  · obtain ⟨c, hcm, hcw⟩ := hNW
    rw [trimS_seed_body hcm hcw hb]
    exact hts.trans (List.IsSuffix.isInfix (List.suffix_append _ _))

/-- Claim C6, counterexample: with `chunkSize = 15`, the oversized sentence
`"Aaaaaaaaaaaaaaaaaaaa."` of `"Aaaaaaaaaaaaaaaaaaaa. Bbb."` appears whole
in two chunks, not exactly one — the overlap seeding copies it forward. -/
theorem c6_counterexample :
    ("Aaaaaaaaaaaaaaaaaaaa." : String).length > 15 ∧
    "Aaaaaaaaaaaaaaaaaaaa.".data ∈ matchSentencesL "Aaaaaaaaaaaaaaaaaaaa. Bbb.".data ∧
    ((chunkText "Aaaaaaaaaaaaaaaaaaaa. Bbb." 15 50).countP
      (fun ch => decide ("Aaaaaaaaaaaaaaaaaaaa.".data <:+: ch.data))) = 2 := by
  decide

/-- Claim C6, amended: every sentence of the input — in particular one
longer than `chunkSize` — appears whole, up to surrounding-whitespace
trimming, as a contiguous substring of at least one chunk; it is never
split across chunks, though overlap seeding may copy it into later
chunks. -/
theorem c6_amended (text : String) (chunkSize overlap : Nat) (s : List Char)
    (hs : s ∈ matchSentencesL text.data) (hlen : s.length > chunkSize)
    (hne : trimS s ≠ []) :
    ∃ ch ∈ chunkText text chunkSize overlap, trimS s <:+: ch.data := by
  by_cases hc : sentencesCore text.data = []
  · have hsl : s = text.data := by
      rw [matchSentencesL, hc] at hs
      simpa using hs
    refine ⟨String.mk (trimS text.data), ?_, ?_⟩
    · unfold chunkText
      rw [chunkList_fallback hc, if_pos (by rw [← hsl]; exact hne)]
      simp
    · rw [hsl]
  · obtain ⟨p₀, rest, hps, h01, h3, h2, -, hwit⟩ := chunkSeeds_matched text.data
      chunkSize overlap hc
    obtain ⟨q, hq, hinf⟩ := hwit s hs
    have hqseed : q.1 = [] ∨ hasNW q.1 := by
      rw [hps] at hq
      rcases List.mem_cons.mp hq with rfl | hq'
      · exact Or.inl h01
      · exact Or.inr (h3 q hq')
    refine ⟨String.mk (trimS (q.1 ++ q.2)), ?_, ?_⟩
    · unfold chunkText
      rw [chunkList_eq_chunkSeeds]
      exact List.mem_map_of_mem _ (List.mem_map_of_mem _ hq)
    · exact infix_chunk_of_pair hinf (h2 q hq) hqseed hne

/-- Witness for the amended C6 at the counterexample input: the oversized
sentence survives whole in some chunk. -/
theorem c6_witness :
    ∃ ch ∈ chunkText "Aaaaaaaaaaaaaaaaaaaa. Bbb." 15 50,
      trimS "Aaaaaaaaaaaaaaaaaaaa.".data <:+: ch.data :=
  c6_amended "Aaaaaaaaaaaaaaaaaaaa. Bbb." 15 50 "Aaaaaaaaaaaaaaaaaaaa.".data
    (by decide) (by decide) (by decide)

end Rag
